import Mathlib

/-
Verification of the text post-processing / chunking pipeline of the
ai-digest repository (src/news_digest.py and src/tech_deepdive.py).

Text is modelled as `List Char` (a Python `str` is a sequence of code
points).  Each Python string operation used by the pipeline is embedded
as a recursive function with the same semantics:

  * `remove2 a b s`       — `s.replace(ab, '')` (leftmost, non-overlapping)
  * `remove3 a b c s`     — `s.replace(abc, '')` (leftmost, non-overlapping)
  * `splitNl s`           — `s.split('\n')`
  * `splitPara s`         — `s.split('\n\n')` (leftmost, non-overlapping)
  * `joinSep sep xs`      — `sep.join(xs)`
  * `pyStrip s`           — `s.strip()`
  * `subDR s`             — `re.sub(r'\*\*([^*]+)\*\*', r'\1', s)`
  * `subSR s`             — `re.sub(r'\*([^*]+)\*', r'\1', s)`
  * `subDDkeep s`         — `re.sub(r'\*\*([^*]+)\*\*', r'*\1*', s)`
-/

/-- Boolean test: is `p` a prefix of `s`?  (Python `s.startswith(p)`.) -/
def isPre : List Char → List Char → Bool
  | [], _ => true
  | _ :: _, [] => false
  | a :: as, b :: bs => a = b && isPre as bs

/-- Boolean substring containment (Python `p in s`). -/
def containsSub (pat : List Char) : List Char → Bool
  | [] => isPre pat []
  | c :: cs => isPre pat (c :: cs) || containsSub pat cs

/-- Python `s.replace(ab, '')` for a two-character pattern `[a, b]`:
remove every leftmost, non-overlapping occurrence. -/
def remove2 (a b : Char) : List Char → List Char
  | [] => []
  | [c] => [c]
  | c1 :: c2 :: rest =>
    if c1 = a ∧ c2 = b then remove2 a b rest
    else c1 :: remove2 a b (c2 :: rest)

/-- Python `s.replace(abc, '')` for a three-character pattern `[a, b, c]`:
remove every leftmost, non-overlapping occurrence. -/
def remove3 (a b c : Char) : List Char → List Char
  | [] => []
  | [c1] => [c1]
  | [c1, c2] => [c1, c2]
  | c1 :: c2 :: c3 :: rest =>
    if c1 = a ∧ c2 = b ∧ c3 = c then remove3 a b c rest
    else c1 :: remove3 a b c (c2 :: c3 :: rest)

/-- Python `s.split('\n')`. -/
def splitNl : List Char → List (List Char)
  | [] => [[]]
  | c :: cs =>
    if c = '\n' then [] :: splitNl cs
    else
      match splitNl cs with
      | [] => [[c]]
      | h :: t => (c :: h) :: t

/-- The paragraph separator `'\n\n'`. -/
def parSep : List Char := ['\n', '\n']

/-- Python `s.split('\n\n')` (leftmost, non-overlapping). -/
def splitPara : List Char → List (List Char)
  | '\n' :: '\n' :: rest => [] :: splitPara rest
  | c :: cs =>
    match splitPara cs with
    | [] => [[c]]
    | h :: t => (c :: h) :: t
  | [] => [[]]

/-- Python `sep.join(xs)`. -/
def joinSep (sep : List Char) : List (List Char) → List Char
  | [] => []
  | [x] => x
  | x :: xs => x ++ sep ++ joinSep sep xs

/-- The whitespace characters stripped by Python `str.strip()`
(ASCII portion, which is all the pipeline can produce). -/
def pyWs (c : Char) : Bool :=
  c = ' ' || c = '\t' || c = '\n' || c = '\r' || c = '\x0b' || c = '\x0c'

/-- Strip leading whitespace (Python `s.lstrip()`). -/
def stripLeft (l : List Char) : List Char := l.dropWhile pyWs

/-- Strip trailing whitespace (Python `s.rstrip()`). -/
def stripRight (l : List Char) : List Char := (l.reverse.dropWhile pyWs).reverse

/-- Python `s.strip()`. -/
def pyStrip (l : List Char) : List Char := stripLeft (stripRight l)

/-- Attempt to match the regex `\*\*([^*]+)\*\*` at the head of `s`;
on success return the captured group and the remainder after the match. -/
def matchDD (s : List Char) : Option (List Char × List Char) :=
  match s with
  | b1 :: b2 :: rest =>
    if b1 = '*' ∧ b2 = '*' then
      let x := rest.takeWhile (fun c => c ≠ '*')
      match rest.dropWhile (fun c => c ≠ '*') with
      | c1 :: c2 :: tail =>
        if x ≠ [] ∧ c1 = '*' ∧ c2 = '*' then some (x, tail) else none
      | _ => none
    else none
  | _ => none

/-- Attempt to match the regex `\*([^*]+)\*` at the head of `s`. -/
def matchSS (s : List Char) : Option (List Char × List Char) :=
  match s with
  | b1 :: rest =>
    if b1 = '*' then
      let x := rest.takeWhile (fun c => c ≠ '*')
      match rest.dropWhile (fun c => c ≠ '*') with
      | c1 :: tail => if x ≠ [] ∧ c1 = '*' then some (x, tail) else none
      | _ => none
    else none
  | _ => none

/-- Python `re.sub(r'\*\*([^*]+)\*\*', r'\1', s)`. -/
def subDR : List Char → List Char
  | [] => []
  | c :: cs =>
    match h : matchDD (c :: cs) with
    | some p => p.1 ++ subDR p.2
    | none => c :: subDR cs
termination_by s => s.length
decreasing_by
  · cases cs with
    | nil => exact absurd h (by simp [matchDD])
    | cons b2 rest =>
      unfold matchDD at h
      simp only at h
      split at h
      · revert h
        split
        · rename_i heq
          intro h
          split at h
          · have hlen : (List.dropWhile (fun c => c ≠ '*') rest).length ≤
                rest.length := (List.dropWhile_sublist _).length_le
            rw [heq] at hlen
            simp only [List.length_cons] at hlen
            cases h
            simp only [List.length_cons]
            omega
          · exact absurd h (by simp)
        · intro h; exact absurd h (by simp)
      · exact absurd h (by simp)
  · simp

/-- Python `re.sub(r'\*([^*]+)\*', r'\1', s)`. -/
def subSR : List Char → List Char
  | [] => []
  | c :: cs =>
    match h : matchSS (c :: cs) with
    | some p => p.1 ++ subSR p.2
    | none => c :: subSR cs
termination_by s => s.length
decreasing_by
  · cases cs with
    | nil =>
      unfold matchSS at h
      simp only at h
      split at h
      · revert h
        split
        · rename_i heq
          intro h
          split at h
          · have hlen : (List.dropWhile (fun c => c ≠ '*') ([] : List Char)).length ≤
                ([] : List Char).length := (List.dropWhile_sublist _).length_le
            rw [heq] at hlen
            simp only [List.length_cons] at hlen
            cases h
            simp only [List.length_cons]
            omega
          · exact absurd h (by simp)
        · intro h; exact absurd h (by simp)
      · exact absurd h (by simp)
    | cons b2 rest =>
      unfold matchSS at h
      simp only at h
      split at h
      · revert h
        split
        · rename_i heq
          intro h
          split at h
          · have hlen : (List.dropWhile (fun c => c ≠ '*') (b2 :: rest)).length ≤
                (b2 :: rest).length := (List.dropWhile_sublist _).length_le
            rw [heq] at hlen
            simp only [List.length_cons] at hlen
            cases h
            simp only [List.length_cons]
            omega
          · exact absurd h (by simp)
        · intro h; exact absurd h (by simp)
      · exact absurd h (by simp)
  · simp

/-- Python `re.sub(r'\*\*([^*]+)\*\*', r'*\1*', s)` (tech_deepdive header
normalization). -/
def subDDkeep : List Char → List Char
  | [] => []
  | c :: cs =>
    match h : matchDD (c :: cs) with
    | some p => '*' :: p.1 ++ '*' :: subDDkeep p.2
    | none => c :: subDDkeep cs
termination_by s => s.length
decreasing_by
  · cases cs with
    | nil => exact absurd h (by simp [matchDD])
    | cons b2 rest =>
      unfold matchDD at h
      simp only at h
      split at h
      · revert h
        split
        · rename_i heq
          intro h
          split at h
          · have hlen : (List.dropWhile (fun c => c ≠ '*') rest).length ≤
                rest.length := (List.dropWhile_sublist _).length_le
            rw [heq] at hlen
            simp only [List.length_cons] at hlen
            cases h
            simp only [List.length_cons]
            omega
          · exact absurd h (by simp)
        · intro h; exact absurd h (by simp)
      · exact absurd h (by simp)
  · simp

/-
The news_digest.py formatter (lines 130-168): markdown-marker removal,
the per-line cleanup loop, and the intro/outro removal loop.
-/

/-- The section-marker emoji alphabet of news_digest.py. -/
def newsEmojis : List (List Char) :=
  ["🇺🇸".toList, "🇮🇳".toList, "🌏".toList, "💰".toList, "🚀".toList, "🎯".toList]

/-- news_digest.py line 142: `any(emoji in line[:5] for emoji in [...])`. -/
def newsMarker5 (line : List Char) : Bool :=
  newsEmojis.any (fun e => containsSub e (line.take 5))

/-- news_digest.py line 162: `any(emoji in line for emoji in [...])`. -/
def newsMarkerAny (line : List Char) : Bool :=
  newsEmojis.any (fun e => containsSub e line)

/-- news_digest.py lines 131-133:
`digest_text.replace('##','').replace('###','').replace('---','')`
(applied in that order). -/
def newsMdClean (s : List Char) : List Char :=
  remove3 '-' '-' '-' (remove3 '#' '#' '#' (remove2 '#' '#' s))

/-- news_digest.py lines 140-151: the body of the per-line cleanup loop.
Header lines (marker emoji among the first five characters) are kept
as they are; bullet lines have `**X**` and then `*X*` spans unwrapped;
all other lines are kept as they are. -/
def newsCleanLine (line : List Char) : List Char :=
  if newsMarker5 line then line
  else if isPre ['•'] (pyStrip line) then subSR (subDR line)
  else line

/-- news_digest.py lines 158-166: the intro-removal loop.  The flag
`started` becomes true at the first line containing a marker; a line is
kept exactly when the flag is true after processing it. -/
def keepFrom (marker : List Char → Bool) : Bool → List (List Char) → List (List Char)
  | _, [] => []
  | started, l :: ls =>
    let started' := started || marker l
    (if started' then [l] else []) ++ keepFrom marker started' ls

/-- The full news_digest.py Formatter (lines 130-168): markdown cleanup,
per-line cleanup, intro removal, final strip. -/
def newsFormat (text : List Char) : List Char :=
  let t1 := newsMdClean text
  let t2 := joinSep ['\n'] ((splitNl t1).map newsCleanLine)
  let kept := keepFrom newsMarkerAny false (splitNl t2)
  pyStrip (joinSep ['\n'] kept)

/-
The tech_deepdive.py normalization loop (lines 142-166), modelled at the
per-line level (the body of `for line in lines`).
-/

/-- The section-marker emoji alphabet of tech_deepdive.py (line 140).
`🛠️` and `🖥️` carry a variation selector and are two code points. -/
def techEmojis : List (List Char) :=
  ["🔬".toList, "🛠️".toList, "💡".toList, "🖥️".toList, "📚".toList, "🔧".toList]

/-- tech_deepdive.py line 150: `any(e in s for e in section_emoji)`. -/
def techMarker (s : List Char) : Bool :=
  techEmojis.any (fun e => containsSub e s)

/-- Python `s.split(' ', 1)`: split at the first space, if any. -/
def splitFirstSpace : List Char → Option (List Char × List Char)
  | [] => none
  | c :: cs =>
    if c = ' ' then some ([], cs)
    else
      match splitFirstSpace cs with
      | none => none
      | some (a, b) => some (c :: a, b)

/-- tech_deepdive.py lines 143-166: the body of the normalization loop.
The line is stripped; empty lines pass through; lines containing a
section emoji have `**X**` rewritten to `*X*` and, if asterisk-free,
everything after the first space wrapped in single asterisks; bullet
lines have emphasis stripped; all other lines are appended stripped. -/
def techCleanLine (line : List Char) : List Char :=
  let s := pyStrip line
  if s = [] then s
  else if techMarker s then
    let s1 := subDDkeep s
    if containsSub ['*'] s1 then s1
    else
      match splitFirstSpace s1 with
      | some (a, b) => a ++ (' ' :: '*' :: b) ++ ['*']
      | none => s1
  else if isPre ['•'] s then subSR (subDR s)
  else s

/-
The chunker (news_digest.py lines 191-205; tech_deepdive.py lines
202-217 use the same accumulation) and the block assembler.
-/

/-- The greedy paragraph-accumulation loop (news_digest.py lines 194-205).
`cur` is `current_chunk`; a completed chunk is closed with `strip()` and
appended whenever adding the next paragraph would exceed the limit, and
the final buffer is closed after the loop if non-empty. -/
def chunkLoop (L : Nat) : List Char → List (List Char) → List (List Char)
  | cur, [] => if cur = [] then [] else [pyStrip cur]
  | cur, p :: ps =>
    if L < cur.length + p.length + 2 then
      (if cur = [] then [] else [pyStrip cur]) ++ chunkLoop L (p ++ parSep) ps
    else
      chunkLoop L (cur ++ p ++ parSep) ps

/-- The Chunker: split on the paragraph separator, then accumulate. -/
def chunksOf (L : Nat) (text : List Char) : List (List Char) :=
  chunkLoop L [] (splitPara text)

/-- The maximum chunk length used by both scripts
(news_digest.py line 173, tech_deepdive.py line 185). -/
def max_length : Nat := 2800

/-- A Slack message block (the four block shapes the scripts build). -/
inductive Block where
  | header : List Char → Block
  | sectionBlk : List Char → Block
  | divider : Block
  | context : List Char → Block
deriving DecidableEq, Repr

/-- news_digest.py lines 210-222: the chunk-to-block loop.  For each
truthy (non-empty) chunk emit a Section block, followed by a Divider
when the chunk is not in the last position. -/
def newsChunkBlocks : List (List Char) → List Block
  | [] => []
  | [c] => if c.isEmpty then [] else [Block.sectionBlk c]
  | c :: rest =>
    (if c.isEmpty then [] else [Block.sectionBlk c, Block.divider]) ++
      newsChunkBlocks rest

/-- The truncation-notice text of news_digest.py (line 273). -/
def newsTruncText : List Char := "_Content truncated due to length..._".toList

/-- The truncation-notice text of tech_deepdive.py (line 232). -/
def techTruncText : List Char := "_(truncated)_".toList

/-- news_digest.py lines 266-275: the 50-block cap.  When the assembled
sequence exceeds 50 blocks, keep the first 49 and append a Context
block signalling truncation. -/
def capBlocksNews (blocks : List Block) : List Block :=
  if 50 < blocks.length then blocks.take 49 ++ [Block.context newsTruncText]
  else blocks

/-- tech_deepdive.py lines 228-233: the 50-block cap with its own
truncation text. -/
def capBlocksTech (blocks : List Block) : List Block :=
  if 50 < blocks.length then blocks.take 49 ++ [Block.context techTruncText]
  else blocks

/-- The full news_digest.py block assembly (lines 175-275): preamble
(header + mention section), the single-block or chunked digest body,
footer (divider + context), then the 50-block cap.  The dynamic texts
(date header, mention, footer) are parameters. -/
def newsAssemble (hdrText mentionText footText : List Char)
    (digest : List Char) : List Block :=
  let digestBlocks :=
    if digest.length ≤ max_length then [Block.sectionBlk digest]
    else newsChunkBlocks (chunksOf max_length digest)
  capBlocksNews
    (([Block.header hdrText, Block.sectionBlk mentionText] ++ digestBlocks) ++
      [Block.divider, Block.context footText])

/-- The raw text a group of consecutive paragraphs contributes to the
accumulation buffer: each paragraph followed by the separator. -/
def packed (g : List (List Char)) : List Char :=
  (g.map (fun p => p ++ parSep)).flatten

/-- The block layout the spec describes for the chunk-emission loop:
one Section block per chunk with Divider blocks strictly between
consecutive Sections and none after the last. -/
def specAlternating : List (List Char) → List Block
  | [] => []
  | [c] => [Block.sectionBlk c]
  | c :: rest => Block.sectionBlk c :: Block.divider :: specAlternating rest

/-- tech_deepdive.py lines 202-217: the chunking loop that emits blocks
as it goes.  Each completed chunk is appended as a Section block with
its stripped text, followed by a Divider; the final buffer is appended
as a Section block with no trailing Divider. -/
def techChunkLoop (L : Nat) : List Char → List (List Char) → List Block
  | cur, [] => if cur = [] then [] else [Block.sectionBlk (pyStrip cur)]
  | cur, p :: ps =>
    if L < cur.length + p.length + 2 then
      (if cur = [] then []
       else [Block.sectionBlk (pyStrip cur), Block.divider]) ++
        techChunkLoop L (p ++ parSep) ps
    else
      techChunkLoop L (cur ++ p ++ parSep) ps

/-- The tech_deepdive chunk-emission stage on a whole text. -/
def techChunkBlocks (L : Nat) (text : List Char) : List Block :=
  techChunkLoop L [] (splitPara text)

/-- A line tail made of well-formed double-emphasis groups: each group
is `**x**` followed by a star-free segment. -/
def ddTail : List (List Char × List Char) → List Char
  | [] => []
  | g :: gs => '*' :: '*' :: (g.1 ++ '*' :: '*' :: (g.2 ++ ddTail gs))

/-- The same groups with the emphasis markers removed. -/
def plainTail : List (List Char × List Char) → List Char
  | [] => []
  | g :: gs => g.1 ++ (g.2 ++ plainTail gs)

/-- The same groups with single emphasis markers. -/
def singleTail : List (List Char × List Char) → List Char
  | [] => []
  | g :: gs => '*' :: (g.1 ++ '*' :: (g.2 ++ singleTail gs))

/-- Well-formedness of the emphasis groups: non-empty star-free
emphasised text, star-free following segments. -/
def emphWf (gs : List (List Char × List Char)) : Prop :=
  ∀ g ∈ gs, g.1 ≠ [] ∧ '*' ∉ g.1 ∧ '*' ∉ g.2

instance (gs : List (List Char × List Char)) : Decidable (emphWf gs) := by
  unfold emphWf
  infer_instance

/-- Length of the leading run of dashes. -/
def leadDash (l : List Char) : Nat := (l.takeWhile (fun c => c = '-')).length

/-
Helper lemmas.
-/

/-- Unfolding equation for `splitPara` in the no-separator-at-head case. -/
theorem splitPara_cons {c : Char} {cs : List Char}
    (hnot : ∀ rest, c = '\n' → cs = '\n' :: rest → False) :
    splitPara (c :: cs) =
      match splitPara cs with
      | [] => [[c]]
      | h :: t => (c :: h) :: t := by
  rw [splitPara.eq_def]
  split
  · rename_i heq
    injection heq with h1 h2
    exact (hnot _ h1 h2).elim
  · rename_i c2 cs2 hne heq
    injection heq with h1 h2
    subst h1; subst h2
    rfl
  · rename_i heq
    exact (List.cons_ne_nil _ _ heq).elim

theorem splitPara_ne_nil : ∀ s : List Char, splitPara s ≠ [] := by
  intro s
  induction s using splitPara.induct with
  | case1 rest ih => simp [splitPara]
  | case2 c cs hnot hnil ih => exact absurd hnil ih
  | case3 c cs hnot h t heq ih =>
    rw [splitPara_cons hnot, heq]
    simp
  | case4 => rw [splitPara.eq_def]; simp

theorem chunkLoop_ne_nil (L : Nat) :
    ∀ (ps : List (List Char)) (cur : List Char), cur ≠ [] →
      chunkLoop L cur ps ≠ [] := by
  intro ps
  induction ps with
  | nil => intro cur h; simp [chunkLoop, h]
  | cons p ps ih =>
    intro cur h
    simp only [chunkLoop]
    split
    · intro hcontra
      rcases List.append_eq_nil.mp hcontra with ⟨h1, h2⟩
      exact ih (p ++ parSep) (by simp [parSep]) h2
    · exact ih (cur ++ p ++ parSep) (by simp [parSep])

theorem packed_singleton (p : List Char) : packed [p] = p ++ parSep := by
  simp [packed]

theorem packed_append_singleton (g : List (List Char)) (p : List Char) :
    packed (g ++ [p]) = packed g ++ (p ++ parSep) := by
  simp [packed]

theorem packed_ne_nil {g : List (List Char)} (h : g ≠ []) : packed g ≠ [] := by
  cases g with
  | nil => exact absurd rfl h
  | cons x g => simp [packed, parSep]

theorem joinSep_cons (sep x : List Char) {xs : List (List Char)} (h : xs ≠ []) :
    joinSep sep (x :: xs) = x ++ sep ++ joinSep sep xs := by
  cases xs with
  | nil => exact absurd rfl h
  | cons y ys => rfl

/-- Rejoining the paragraphs with the separator reproduces the text
(Python: `'\n\n'.join(s.split('\n\n')) == s`). -/
theorem joinSep_splitPara (s : List Char) : joinSep parSep (splitPara s) = s := by
  induction s using splitPara.induct with
  | case1 rest ih =>
    rw [show splitPara ('\n' :: '\n' :: rest) = [] :: splitPara rest from rfl]
    rw [joinSep_cons _ _ (splitPara_ne_nil rest)]
    simpa [parSep] using ih
  | case2 c cs hnot hnil ih => exact absurd hnil (splitPara_ne_nil cs)
  | case3 c cs hnot h t heq ih =>
    rw [splitPara_cons hnot, heq]
    have step : joinSep parSep ((c :: h) :: t) = c :: joinSep parSep (h :: t) := by
      cases t with
      | nil => rfl
      | cons a b => simp [joinSep]
    rw [heq] at ih
    rw [step, ih]
  | case4 => rfl

/-- Characterization of the greedy accumulation loop: starting from a
non-empty buffer holding the packed paragraphs `g0`, the produced chunks
are exactly the stripped packings of a partition of `g0 ++ ps` into
consecutive non-empty groups, and every group of two or more paragraphs
packs to at most `L` characters. -/
theorem chunkLoop_spec (L : Nat) :
    ∀ (ps : List (List Char)) (g0 : List (List Char)), g0 ≠ [] →
      (2 ≤ g0.length → (packed g0).length ≤ L) →
      ∃ groups : List (List (List Char)),
        groups.flatten = g0 ++ ps ∧
        (∀ g ∈ groups, g ≠ []) ∧
        (∀ g ∈ groups, 2 ≤ g.length → (packed g).length ≤ L) ∧
        chunkLoop L (packed g0) ps = groups.map (fun g => pyStrip (packed g)) := by
  intro ps
  induction ps with
  | nil =>
    intro g0 hne hinv
    refine ⟨[g0], by simp, by simp [hne], by simpa using hinv, ?_⟩
    simp [chunkLoop, packed_ne_nil hne]
  | cons p ps ih =>
    intro g0 hne hinv
    simp only [chunkLoop]
    by_cases hcond : L < (packed g0).length + p.length + 2
    · rw [if_pos hcond, if_neg (packed_ne_nil hne)]
      rcases ih [p] (by simp) (by simp) with ⟨groups, hflat, hne2, hinv2, heq⟩
      rw [packed_singleton] at heq
      refine ⟨g0 :: groups, by simp [hflat], ?_, ?_, ?_⟩
      · intro g hg
        rcases List.mem_cons.mp hg with hg | hg
        · exact hg ▸ hne
        · exact hne2 g hg
      · intro g hg
        rcases List.mem_cons.mp hg with hg | hg
        · exact hg ▸ hinv
        · exact hinv2 g hg
      · simp [heq]
    · rw [if_neg hcond]
      have hlen : (packed (g0 ++ [p])).length ≤ L := by
        rw [packed_append_singleton]
        simp only [List.length_append, List.length_cons, parSep,
          List.length_nil]
        omega
      rcases ih (g0 ++ [p]) (by simp) (fun _ => hlen) with
        ⟨groups, hflat, hne2, hinv2, heq⟩
      rw [packed_append_singleton, ← List.append_assoc] at heq
      exact ⟨groups, by simp [hflat], hne2, hinv2, heq⟩

/-- Characterization of the whole Chunker: the chunks are exactly the
stripped packings of a partition of `splitPara text` into consecutive
non-empty groups; multi-paragraph groups pack to at most `L`. -/
theorem chunksOf_spec (L : Nat) (text : List Char) :
    ∃ groups : List (List (List Char)),
      groups.flatten = splitPara text ∧
      (∀ g ∈ groups, g ≠ []) ∧
      (∀ g ∈ groups, 2 ≤ g.length → (packed g).length ≤ L) ∧
      chunksOf L text = groups.map (fun g => pyStrip (packed g)) := by
  obtain ⟨p, ps, hps⟩ : ∃ p ps, splitPara text = p :: ps := by
    cases h : splitPara text with
    | nil => exact absurd h (splitPara_ne_nil text)
    | cons a b => exact ⟨a, b, rfl⟩
  have entry : chunksOf L text = chunkLoop L (packed [p]) ps := by
    unfold chunksOf
    rw [hps]
    simp only [chunkLoop, packed_singleton]
    by_cases hcond : L < List.length ([] : List Char) + p.length + 2
    · rw [if_pos hcond]
      simp
    · rw [if_neg hcond]
      simp
  rcases chunkLoop_spec L ps [p] (by simp) (by simp) with
    ⟨groups, hflat, hne, hinv, heq⟩
  refine ⟨groups, ?_, hne, hinv, entry.trans heq⟩
  rw [hflat, hps]
  simp

theorem pyStrip_length_le (l : List Char) : (pyStrip l).length ≤ l.length := by
  unfold pyStrip stripLeft stripRight
  calc ((l.reverse.dropWhile pyWs).reverse.dropWhile pyWs).length
      ≤ (l.reverse.dropWhile pyWs).reverse.length :=
        (List.dropWhile_sublist _).length_le
    _ = (l.reverse.dropWhile pyWs).length := List.length_reverse _
    _ ≤ l.reverse.length := (List.dropWhile_sublist _).length_le
    _ = l.length := List.length_reverse _

theorem pyStrip_append_parSep (p : List Char) :
    pyStrip (p ++ parSep) = pyStrip p := by
  unfold pyStrip stripLeft stripRight parSep
  have : ((p ++ ['\n', '\n']).reverse.dropWhile pyWs) =
      p.reverse.dropWhile pyWs := by
    rw [List.reverse_append]
    show List.dropWhile pyWs ('\n' :: '\n' :: p.reverse) = _
    rw [List.dropWhile_cons_of_pos (by decide), List.dropWhile_cons_of_pos (by decide)]
  rw [this]

/-- Claim C4: the chunks produced by the Chunker are exactly the
stripped packings of an in-order partition of the paragraph list into
consecutive non-empty groups (no reordering, no deduplication, loss
only of whitespace at chunk boundaries), and rejoining the paragraph
list with the separator reproduces the text. -/
theorem c4_chunk_roundtrip (L : Nat) (text : List Char) :
    joinSep parSep (splitPara text) = text ∧
    ∃ groups : List (List (List Char)),
      groups.flatten = splitPara text ∧
      (∀ g ∈ groups, g ≠ []) ∧
      chunksOf L text = groups.map (fun g => pyStrip (packed g)) := by
  refine ⟨joinSep_splitPara text, ?_⟩
  rcases chunksOf_spec L text with ⟨groups, h1, h2, _, h4⟩
  exact ⟨groups, h1, h2, h4⟩

/-- Claim C5: every chunk has length at most `L`, except a chunk that
is a single stripped paragraph whose own length exceeds `L`. -/
theorem c5_chunk_length (L : Nat) (text : List Char) :
    ∀ c ∈ chunksOf L text, c.length ≤ L ∨
      ∃ p ∈ splitPara text, c = pyStrip (p ++ parSep) ∧ L < p.length := by
  rcases chunksOf_spec L text with ⟨groups, hflat, hne, hinv, heq⟩
  intro c hc
  rw [heq] at hc
  rcases List.mem_map.mp hc with ⟨g, hg, rfl⟩
  by_cases hlen : (pyStrip (packed g)).length ≤ L
  · exact Or.inl hlen
  · right
    push_neg at hlen
    match g, hne g hg, hg with
    | [p], _, hg =>
      refine ⟨p, ?_, by rw [packed_singleton], ?_⟩
      · rw [← hflat]
        exact List.mem_flatten.mpr ⟨[p], hg, by simp⟩
      · have h1 : pyStrip (packed [p]) = pyStrip p := by
          rw [packed_singleton, pyStrip_append_parSep]
        have h2 : (pyStrip p).length ≤ p.length := pyStrip_length_le p
        rw [h1] at hlen
        omega
    | p :: q :: g2, _, hg =>
      exfalso
      have hle : (packed (p :: q :: g2)).length ≤ L :=
        hinv _ hg (by simp)
      have := pyStrip_length_le (packed (p :: q :: g2))
      omega

/-- Claim C5 witness: with `L = 4`, the text `"aaaaaa"` is a single
paragraph longer than `L` and becomes its own over-limit chunk. -/
theorem c5_witness :
    "aaaaaa".toList.length ≤ 4 ∨
      ∃ p ∈ splitPara "aaaaaa".toList,
        "aaaaaa".toList = pyStrip (p ++ parSep) ∧ 4 < p.length :=
  c5_chunk_length 4 "aaaaaa".toList "aaaaaa".toList (by decide)

/-- Claim C6: when the assembled block sequence exceeds 50 blocks, both
scripts return exactly 50 blocks — the first 49 of the unbounded
sequence followed by a truncation-signalling Context block, which is
the last element. -/
theorem c6_block_cap (bs : List Block) (h : 50 < bs.length) :
    capBlocksNews bs = bs.take 49 ++ [Block.context newsTruncText] ∧
    (capBlocksNews bs).length = 50 ∧
    (capBlocksNews bs).getLast? = some (Block.context newsTruncText) ∧
    capBlocksTech bs = bs.take 49 ++ [Block.context techTruncText] ∧
    (capBlocksTech bs).length = 50 ∧
    (capBlocksTech bs).getLast? = some (Block.context techTruncText) := by
  unfold capBlocksNews capBlocksTech
  rw [if_pos h, if_pos h]
  have hl : (bs.take 49).length = 49 := by
    rw [List.length_take]
    omega
  refine ⟨rfl, ?_, ?_, rfl, ?_, ?_⟩
  · simp [hl]
  · exact List.getLast?_concat _
  · simp [hl]
  · exact List.getLast?_concat _

/-- Claim C6 witness: an unbounded sequence of 55 blocks is capped to
exactly 50 with the truncation Context block last. -/
theorem c6_witness :
    capBlocksNews (List.replicate 55 Block.divider) =
        (List.replicate 55 Block.divider).take 49 ++
          [Block.context newsTruncText] ∧
      (capBlocksNews (List.replicate 55 Block.divider)).length = 50 ∧
      (capBlocksNews (List.replicate 55 Block.divider)).getLast? =
        some (Block.context newsTruncText) ∧
      capBlocksTech (List.replicate 55 Block.divider) =
        (List.replicate 55 Block.divider).take 49 ++
          [Block.context techTruncText] ∧
      (capBlocksTech (List.replicate 55 Block.divider)).length = 50 ∧
      (capBlocksTech (List.replicate 55 Block.divider)).getLast? =
        some (Block.context techTruncText) :=
  c6_block_cap (List.replicate 55 Block.divider) (by simp)

/-- Claim C3 counterexample: on the empty input the Chunker does not
return an empty chunk sequence (it returns one empty chunk), and the
Assembler does not return only the preamble and footer blocks (an
empty Section block is present between them). -/
theorem c3_counterexample :
    chunksOf max_length [] ≠ ([] : List (List Char)) ∧
      newsAssemble "H".toList "M".toList "F".toList [] ≠
        [Block.header "H".toList, Block.sectionBlk "M".toList,
          Block.divider, Block.context "F".toList] := by
  constructor
  · decide
  · decide

/-- Claim C3 amended: on the empty input the Formatter returns the
empty string, the chunk-accumulation algorithm returns the single
empty chunk, and the Assembler returns the preamble, one Section block
with empty text, and the footer. -/
theorem c3_empty_input (hdr mention foot : List Char) :
    newsFormat [] = [] ∧
    chunksOf max_length [] = [[]] ∧
    newsAssemble hdr mention foot [] =
      [Block.header hdr, Block.sectionBlk mention, Block.sectionBlk [],
        Block.divider, Block.context foot] := by
  refine ⟨by decide, by decide, ?_⟩
  unfold newsAssemble capBlocksNews
  norm_num [max_length]

theorem matchDD_none_of_head {c : Char} (cs : List Char) (h : c ≠ '*') :
    matchDD (c :: cs) = none := by
  cases cs with
  | nil => rfl
  | cons b2 rest =>
    simp only [matchDD]
    rw [if_neg (fun hh => h hh.1)]

theorem matchSS_none_of_head {c : Char} (cs : List Char) (h : c ≠ '*') :
    matchSS (c :: cs) = none := by
  simp only [matchSS]
  rw [if_neg h]

theorem subDR_append_nostar {u : List Char} (v : List Char) (h : '*' ∉ u) :
    subDR (u ++ v) = u ++ subDR v := by
  induction u with
  | nil => simp
  | cons c u ih =>
    have hc : c ≠ '*' := fun hh => h (by simp [hh])
    have hu : '*' ∉ u := fun hh => h (List.mem_cons_of_mem c hh)
    rw [List.cons_append, subDR, matchDD_none_of_head _ hc, ih hu]
    rfl

theorem subSR_append_nostar {u : List Char} (v : List Char) (h : '*' ∉ u) :
    subSR (u ++ v) = u ++ subSR v := by
  induction u with
  | nil => simp
  | cons c u ih =>
    have hc : c ≠ '*' := fun hh => h (by simp [hh])
    have hu : '*' ∉ u := fun hh => h (List.mem_cons_of_mem c hh)
    rw [List.cons_append, subSR, matchSS_none_of_head _ hc, ih hu]
    rfl

theorem subDDkeep_append_nostar {u : List Char} (v : List Char) (h : '*' ∉ u) :
    subDDkeep (u ++ v) = u ++ subDDkeep v := by
  induction u with
  | nil => simp
  | cons c u ih =>
    have hc : c ≠ '*' := fun hh => h (by simp [hh])
    have hu : '*' ∉ u := fun hh => h (List.mem_cons_of_mem c hh)
    rw [List.cons_append, subDDkeep, matchDD_none_of_head _ hc, ih hu]
    rfl

theorem subDR_nostar {u : List Char} (h : '*' ∉ u) : subDR u = u := by
  have := subDR_append_nostar [] h
  simpa [subDR] using this

theorem subSR_nostar {u : List Char} (h : '*' ∉ u) : subSR u = u := by
  have := subSR_append_nostar [] h
  simpa [subSR] using this

theorem subDDkeep_nostar {u : List Char} (h : '*' ∉ u) : subDDkeep u = u := by
  have := subDDkeep_append_nostar [] h
  simpa [subDDkeep] using this

theorem takeWhile_nostar_append {x : List Char} (t : List Char) (h : '*' ∉ x) :
    (x ++ '*' :: t).takeWhile (fun c => c ≠ '*') = x ∧
      (x ++ '*' :: t).dropWhile (fun c => c ≠ '*') = '*' :: t := by
  induction x with
  | nil => simp [List.takeWhile, List.dropWhile]
  | cons c x ih =>
    have hc : c ≠ '*' := fun hh => h (by simp [hh])
    have hx : '*' ∉ x := fun hh => h (List.mem_cons_of_mem c hh)
    rcases ih hx with ⟨h1, h2⟩
    constructor
    · rw [List.cons_append, List.takeWhile_cons_of_pos (by simp [hc]), h1]
    · rw [List.cons_append, List.dropWhile_cons_of_pos (by simp [hc]), h2]

theorem matchDD_group {x : List Char} (rest : List Char)
    (hne : x ≠ []) (hx : '*' ∉ x) :
    matchDD ('*' :: '*' :: (x ++ '*' :: '*' :: rest)) = some (x, rest) := by
  simp only [matchDD]
  rw [if_pos (by simp)]
  rcases takeWhile_nostar_append ('*' :: rest) hx with ⟨h1, h2⟩
  simp only [h1, h2]
  rw [if_pos (by simp [hne])]

theorem subDR_group {x : List Char} (rest : List Char)
    (hne : x ≠ []) (hx : '*' ∉ x) :
    subDR ('*' :: '*' :: (x ++ '*' :: '*' :: rest)) = x ++ subDR rest := by
  rw [subDR]
  split
  · rename_i p heq
    rw [matchDD_group rest hne hx] at heq
    injection heq with heq
    rw [← heq]
  · rename_i heq
    rw [matchDD_group rest hne hx] at heq
    exact absurd heq (by simp)

theorem subDDkeep_group {x : List Char} (rest : List Char)
    (hne : x ≠ []) (hx : '*' ∉ x) :
    subDDkeep ('*' :: '*' :: (x ++ '*' :: '*' :: rest)) =
      '*' :: x ++ '*' :: subDDkeep rest := by
  rw [subDDkeep]
  split
  · rename_i p heq
    rw [matchDD_group rest hne hx] at heq
    injection heq with heq
    rw [← heq]
  · rename_i heq
    rw [matchDD_group rest hne hx] at heq
    exact absurd heq (by simp)

theorem subDR_ddTail (gs : List (List Char × List Char)) (hwf : emphWf gs) :
    subDR (ddTail gs) = plainTail gs := by
  induction gs with
  | nil => simp [ddTail, plainTail, subDR]
  | cons g gs ih =>
    rcases hwf g (by simp) with ⟨hne, hx, hseg⟩
    have hwf2 : emphWf gs := fun p hp => hwf p (List.mem_cons_of_mem g hp)
    rw [ddTail, subDR_group _ hne hx, subDR_append_nostar _ hseg, ih hwf2]
    rfl

theorem subDDkeep_ddTail (gs : List (List Char × List Char)) (hwf : emphWf gs) :
    subDDkeep (ddTail gs) = singleTail gs := by
  induction gs with
  | nil => simp [ddTail, singleTail, subDDkeep]
  | cons g gs ih =>
    rcases hwf g (by simp) with ⟨hne, hx, hseg⟩
    have hwf2 : emphWf gs := fun p hp => hwf p (List.mem_cons_of_mem g hp)
    rw [ddTail, subDDkeep_group _ hne hx, subDDkeep_append_nostar _ hseg,
      ih hwf2]
    rfl

theorem star_not_mem_plainTail (gs : List (List Char × List Char))
    (hwf : emphWf gs) : '*' ∉ plainTail gs := by
  induction gs with
  | nil => simp [plainTail]
  | cons g gs ih =>
    rcases hwf g (by simp) with ⟨_, hx, hseg⟩
    have hwf2 : emphWf gs := fun p hp => hwf p (List.mem_cons_of_mem g hp)
    simp only [plainTail, List.mem_append]
    intro hmem
    rcases hmem with hmem | hmem | hmem
    · exact hx hmem
    · exact hseg hmem
    · exact ih hwf2 hmem

theorem containsSub_single_iff (c : Char) (l : List Char) :
    containsSub [c] l = true ↔ c ∈ l := by
  induction l with
  | nil => simp [containsSub, isPre]
  | cons a l ih =>
    simp only [containsSub, isPre, Bool.or_eq_true, List.mem_cons]
    constructor
    · intro h
      rcases h with h | h
      · left
        have := (Bool.and_eq_true _ _).mp h
        exact decide_eq_true_eq.mp this.1
      · exact Or.inr (ih.mp h)
    · intro h
      rcases h with h | h
      · exact Or.inl (by simp [h])
      · exact Or.inr (ih.mpr h)

theorem containsSub_single_false {c : Char} {l : List Char} (h : c ∉ l) :
    containsSub [c] l = false := by
  cases hh : containsSub [c] l
  · rfl
  · exact absurd ((containsSub_single_iff c l).mp hh) h

theorem splitFirstSpace_none_iff (s : List Char) :
    splitFirstSpace s = none ↔ ' ' ∉ s := by
  induction s with
  | nil => simp [splitFirstSpace]
  | cons c cs ih =>
    by_cases hc : c = ' '
    · subst hc
      simp [splitFirstSpace]
    · cases hsp : splitFirstSpace cs with
      | none =>
        have heq : splitFirstSpace (c :: cs) = none := by
          rw [splitFirstSpace, if_neg hc, hsp]
        rw [heq]
        constructor
        · intro _ hmem
          rcases List.mem_cons.mp hmem with h1 | h1
          · exact hc h1.symm
          · exact ih.mp hsp h1
        · intro _; rfl
      | some p =>
        obtain ⟨a, b⟩ := p
        have heq : splitFirstSpace (c :: cs) = some (c :: a, b) := by
          rw [splitFirstSpace, if_neg hc, hsp]
        rw [heq]
        constructor
        · intro hcontra; exact absurd hcontra (by simp)
        · intro hmem
          exfalso
          have hspace : ' ' ∈ cs := by
            by_contra hnot
            rw [ih.mpr hnot] at hsp
            exact absurd hsp (by simp)
          exact hmem (List.mem_cons_of_mem c hspace)

/-- Claim C9 amended: a bullet line that is not recognized as a
section-header line (in either variant) and whose asterisks occur only
as well-formed double-emphasis groups is reduced to plain text with no
emphasis markers, by both cleanup loops. -/
theorem c9_bullet_plain (seg0 : List Char) (gs : List (List Char × List Char))
    (h0 : '*' ∉ seg0) (hwf : emphWf gs)
    (hstrip : pyStrip (seg0 ++ ddTail gs) = seg0 ++ ddTail gs)
    (hm5 : newsMarker5 (seg0 ++ ddTail gs) = false)
    (hmt : techMarker (seg0 ++ ddTail gs) = false)
    (hb : isPre ['•'] (seg0 ++ ddTail gs) = true) :
    newsCleanLine (seg0 ++ ddTail gs) = seg0 ++ plainTail gs ∧
    techCleanLine (seg0 ++ ddTail gs) = seg0 ++ plainTail gs ∧
    containsSub ['*'] (seg0 ++ plainTail gs) = false := by
  have hplainstar : '*' ∉ seg0 ++ plainTail gs := by
    intro hmem
    rcases List.mem_append.mp hmem with hmem | hmem
    · exact h0 hmem
    · exact star_not_mem_plainTail gs hwf hmem
  have hsub : subSR (subDR (seg0 ++ ddTail gs)) = seg0 ++ plainTail gs := by
    rw [subDR_append_nostar _ h0, subDR_ddTail gs hwf]
    exact subSR_nostar hplainstar
  refine ⟨?_, ?_, containsSub_single_false hplainstar⟩
  · unfold newsCleanLine
    rw [if_neg (by simp [hm5]), if_pos (by rw [hstrip]; exact hb)]
    exact hsub
  · have hlne : seg0 ++ ddTail gs ≠ [] := by
      intro h
      rw [h] at hb
      exact absurd hb (by decide)
    unfold techCleanLine
    simp only [hstrip]
    rw [if_neg hlne, if_neg (by simp [hmt]), if_pos hb]
    exact hsub

/-- Claim C9 amended witness: the bullet line with one well-formed
double-emphasis group is reduced to plain text. -/
theorem c9_witness :
    newsCleanLine ("• ".toList ++ ddTail [("Item".toList, " detail".toList)]) =
        "• ".toList ++ plainTail [("Item".toList, " detail".toList)] ∧
      techCleanLine ("• ".toList ++ ddTail [("Item".toList, " detail".toList)]) =
        "• ".toList ++ plainTail [("Item".toList, " detail".toList)] ∧
      containsSub ['*']
        ("• ".toList ++ plainTail [("Item".toList, " detail".toList)]) = false :=
  c9_bullet_plain "• ".toList [("Item".toList, " detail".toList)]
    (by decide) (by decide) (by decide) (by decide) (by decide) (by decide)

/-- Claim C9 counterexample: a bullet line that also contains a section
marker among its first five characters is routed to the header branch
of news_digest and keeps its double-emphasis markers; the full
Formatter passes it through unchanged. -/
theorem c9_counterexample :
    isPre ['•'] (pyStrip "• 🇺🇸 **x**".toList) = true ∧
    containsSub "**".toList "• 🇺🇸 **x**".toList = true ∧
    newsFormat "• 🇺🇸 **x**".toList = "• 🇺🇸 **x**".toList ∧
    containsSub "**".toList (newsFormat "• 🇺🇸 **x**".toList) = true := by
  exact ⟨by decide, by decide, by decide, by decide⟩

/-- Claim C2 amended: in tech_deepdive, a section-header line whose
asterisks occur only as well-formed double-emphasis groups has each
`**X**` rewritten to `*X*`; in news_digest, the header-line branch
keeps the line unchanged. -/
theorem c2_header_emphasis :
    (∀ (seg0 : List Char) (gs : List (List Char × List Char)),
      '*' ∉ seg0 → emphWf gs → gs ≠ [] →
      pyStrip (seg0 ++ ddTail gs) = seg0 ++ ddTail gs →
      techMarker (seg0 ++ ddTail gs) = true →
      techCleanLine (seg0 ++ ddTail gs) = seg0 ++ singleTail gs) ∧
    (∀ line : List Char, newsMarker5 line = true →
      newsCleanLine line = line) := by
  constructor
  · intro seg0 gs h0 hwf hne hstrip hmark
    have hlne : seg0 ++ ddTail gs ≠ [] := by
      intro h
      rw [h] at hmark
      exact absurd hmark (by decide)
    unfold techCleanLine
    simp only [hstrip]
    rw [if_neg hlne, if_pos hmark]
    have hk : subDDkeep (seg0 ++ ddTail gs) = seg0 ++ singleTail gs := by
      rw [subDDkeep_append_nostar _ h0, subDDkeep_ddTail gs hwf]
    rw [hk]
    have hstar : containsSub ['*'] (seg0 ++ singleTail gs) = true := by
      apply (containsSub_single_iff _ _).mpr
      cases gs with
      | nil => exact absurd rfl hne
      | cons g gs2 =>
        apply List.mem_append.mpr
        right
        simp [singleTail]
    rw [if_pos hstar]
  · intro line h
    unfold newsCleanLine
    rw [if_pos h]

/-- Claim C2 amended witness: tech_deepdive rewrites the header
`🔬 **A**` to `🔬 *A*`; news_digest keeps `🇺🇸 **U**` unchanged. -/
theorem c2_witness :
    techCleanLine "🔬 **A**".toList = "🔬 *A*".toList ∧
      newsCleanLine "🇺🇸 **U**".toList = "🇺🇸 **U**".toList := by
  constructor
  · have harg : ("🔬 **A**".toList : List Char) =
        "🔬 ".toList ++ ddTail [("A".toList, ([] : List Char))] := by decide
    rw [harg]
    have h := c2_header_emphasis.1 "🔬 ".toList [("A".toList, ([] : List Char))]
      (by decide) (by decide) (by decide) (by decide) (by decide)
    rw [h]
    decide
  · exact c2_header_emphasis.2 "🇺🇸 **U**".toList (by decide)

/-- Claim C2 counterexample: news_digest leaves a section-header line
carrying double-emphasis markup unchanged — the Formatter output still
shows two emphasis markers on that line, not one. -/
theorem c2_counterexample :
    newsFormat "🇺🇸 **USA**".toList = "🇺🇸 **USA**".toList ∧
      containsSub "**".toList (newsFormat "🇺🇸 **USA**".toList) = true ∧
      "🇺🇸 **USA**".toList ≠ "🇺🇸 *USA*".toList := by
  exact ⟨by decide, by decide, by decide⟩

/-- Claim C10: in tech_deepdive, a line whose stripped form contains a
section-marker emoji but no asterisk is rewritten by splitting at the
first space and wrapping everything after it in single asterisks; it is
left (stripped but otherwise) unchanged exactly when it contains no
space. -/
theorem c10_header_wrap (line : List Char)
    (hm : techMarker (pyStrip line) = true)
    (hstar : containsSub ['*'] (pyStrip line) = false) :
    techCleanLine line =
      (match splitFirstSpace (pyStrip line) with
       | some (a, b) => a ++ (' ' :: '*' :: b) ++ ['*']
       | none => pyStrip line) ∧
    (techCleanLine line = pyStrip line ↔
      containsSub [' '] (pyStrip line) = false) := by
  have hne : pyStrip line ≠ [] := by
    intro h
    rw [h] at hm
    exact absurd hm (by decide)
  have hnostar : '*' ∉ pyStrip line := by
    intro h
    rw [(containsSub_single_iff _ _).mpr h] at hstar
    exact absurd hstar (by simp)
  have hmain : techCleanLine line =
      (match splitFirstSpace (pyStrip line) with
       | some (a, b) => a ++ (' ' :: '*' :: b) ++ ['*']
       | none => pyStrip line) := by
    unfold techCleanLine
    rw [if_neg hne, if_pos hm, subDDkeep_nostar hnostar,
      if_neg (by simp [hstar])]
  refine ⟨hmain, ?_⟩
  constructor
  · intro heq
    cases hsp : splitFirstSpace (pyStrip line) with
    | none =>
      exact containsSub_single_false ((splitFirstSpace_none_iff _).mp hsp)
    | some p =>
      obtain ⟨a, b⟩ := p
      exfalso
      rw [hmain, hsp] at heq
      apply hnostar
      rw [← heq]
      simp
  · intro hnospace
    rw [hmain]
    have hnone : splitFirstSpace (pyStrip line) = none := by
      apply (splitFirstSpace_none_iff _).mpr
      intro hmem
      rw [(containsSub_single_iff _ _).mpr hmem] at hnospace
      exact absurd hnospace (by simp)
    rw [hnone]

/-- Claim C10 witness: the asterisk-free header line `🔬 Research` is
rewritten to `🔬 *Research*`, and a space-free marker line is left
unchanged. -/
theorem c10_witness :
    techCleanLine "🔬 Research".toList = "🔬 *Research*".toList ∧
      techCleanLine "🔬x".toList = "🔬x".toList := by
  constructor
  · have h := (c10_header_wrap "🔬 Research".toList (by decide) (by decide)).1
    rw [h]
    decide
  · have h := (c10_header_wrap "🔬x".toList (by decide) (by decide)).2
    exact h.mpr (by decide)

theorem matchDD_some_subset {s : List Char} {p : List Char × List Char}
    (h : matchDD s = some p) :
    (∀ a ∈ p.1, a ∈ s) ∧ (∀ a ∈ p.2, a ∈ s) := by
  unfold matchDD at h
  match s, h with
  | b1 :: b2 :: rest, h =>
    simp only at h
    split at h
    · revert h
      split
      · rename_i heq
        intro h
        split at h
        · cases h
          constructor
          · intro a ha
            have : a ∈ rest := (List.takeWhile_sublist _).subset ha
            simp [this]
          · intro a ha
            have h1 : a ∈ rest.dropWhile (fun c => c ≠ '*') := by
              rw [heq]
              simp [ha]
            have : a ∈ rest := (List.dropWhile_sublist _).subset h1
            simp [this]
        · exact absurd h (by simp)
      · intro h; exact absurd h (by simp)
    · exact absurd h (by simp)

theorem matchSS_some_subset {s : List Char} {p : List Char × List Char}
    (h : matchSS s = some p) :
    (∀ a ∈ p.1, a ∈ s) ∧ (∀ a ∈ p.2, a ∈ s) := by
  unfold matchSS at h
  match s, h with
  | b1 :: rest, h =>
    simp only at h
    split at h
    · revert h
      split
      · rename_i heq
        intro h
        split at h
        · cases h
          constructor
          · intro a ha
            have : a ∈ rest := (List.takeWhile_sublist _).subset ha
            simp [this]
          · intro a ha
            have h1 : a ∈ rest.dropWhile (fun c => c ≠ '*') := by
              rw [heq]
              simp [ha]
            have : a ∈ rest := (List.dropWhile_sublist _).subset h1
            simp [this]
        · exact absurd h (by simp)
      · intro h; exact absurd h (by simp)
    · exact absurd h (by simp)

theorem subDR_subset (s : List Char) : ∀ a ∈ subDR s, a ∈ s := by
  induction s using subDR.induct with
  | case1 => simp [subDR]
  | case2 c cs p heq ih =>
    intro a ha
    rw [subDR] at ha
    split at ha
    · rename_i q heq2
      rw [heq] at heq2
      injection heq2 with heq2
      subst heq2
      rcases List.mem_append.mp ha with ha | ha
      · exact (matchDD_some_subset heq).1 a ha
      · exact (matchDD_some_subset heq).2 a (ih a ha)
    · rename_i heq2
      rw [heq] at heq2
      exact absurd heq2 (by simp)
  | case3 c cs heq ih =>
    intro a ha
    rw [subDR] at ha
    split at ha
    · rename_i q heq2
      rw [heq] at heq2
      exact absurd heq2 (by simp)
    · rcases List.mem_cons.mp ha with ha | ha
      · simp [ha]
      · exact List.mem_cons_of_mem c (ih a ha)

theorem subSR_subset (s : List Char) : ∀ a ∈ subSR s, a ∈ s := by
  induction s using subSR.induct with
  | case1 => simp [subSR]
  | case2 c cs p heq ih =>
    intro a ha
    rw [subSR] at ha
    split at ha
    · rename_i q heq2
      rw [heq] at heq2
      injection heq2 with heq2
      subst heq2
      rcases List.mem_append.mp ha with ha | ha
      · exact (matchSS_some_subset heq).1 a ha
      · exact (matchSS_some_subset heq).2 a (ih a ha)
    · rename_i heq2
      rw [heq] at heq2
      exact absurd heq2 (by simp)
  | case3 c cs heq ih =>
    intro a ha
    rw [subSR] at ha
    split at ha
    · rename_i q heq2
      rw [heq] at heq2
      exact absurd heq2 (by simp)
    · rcases List.mem_cons.mp ha with ha | ha
      · simp [ha]
      · exact List.mem_cons_of_mem c (ih a ha)

theorem splitNl_ne_nil (s : List Char) : splitNl s ≠ [] := by
  induction s with
  | nil => simp [splitNl]
  | cons c cs ih =>
    simp only [splitNl]
    split
    · simp
    · split <;> simp

theorem nl_not_mem_splitNl (s : List Char) : ∀ l ∈ splitNl s, '\n' ∉ l := by
  induction s with
  | nil => simp [splitNl]
  | cons c cs ih =>
    intro l hl
    simp only [splitNl] at hl
    by_cases hc : c = '\n'
    · rw [if_pos hc] at hl
      rcases List.mem_cons.mp hl with h1 | h1
      · subst h1; simp
      · exact ih l h1
    · rw [if_neg hc] at hl
      cases hsp : splitNl cs with
      | nil => exact absurd hsp (splitNl_ne_nil cs)
      | cons h t =>
        rw [hsp] at hl
        rcases List.mem_cons.mp hl with h1 | h1
        · subst h1
          intro hmem
          rcases List.mem_cons.mp hmem with h2 | h2
          · exact hc h2.symm
          · exact ih h (by rw [hsp]; simp) h2
        · exact ih l (by rw [hsp]; exact List.mem_cons_of_mem h h1)

theorem splitNl_no_nl {x : List Char} (h : '\n' ∉ x) : splitNl x = [x] := by
  induction x with
  | nil => rfl
  | cons c cs ih =>
    have hc : c ≠ '\n' := fun hh => h (by simp [hh])
    have hcs : '\n' ∉ cs := fun hh => h (List.mem_cons_of_mem c hh)
    simp only [splitNl]
    rw [if_neg hc, ih hcs]

theorem splitNl_append_nl {x : List Char} (v : List Char) (h : '\n' ∉ x) :
    splitNl (x ++ '\n' :: v) = x :: splitNl v := by
  induction x with
  | nil =>
    simp only [List.nil_append, splitNl, if_pos rfl]
    cases hsp : splitNl v with
    | nil => exact absurd hsp (splitNl_ne_nil v)
    | cons h t => rfl
  | cons c cs ih =>
    have hc : c ≠ '\n' := fun hh => h (by simp [hh])
    have hcs : '\n' ∉ cs := fun hh => h (List.mem_cons_of_mem c hh)
    rw [List.cons_append]
    simp only [splitNl]
    rw [if_neg hc, ih hcs]

theorem splitNl_joinSep {ls : List (List Char)} (hne : ls ≠ [])
    (h : ∀ l ∈ ls, '\n' ∉ l) : splitNl (joinSep ['\n'] ls) = ls := by
  induction ls with
  | nil => exact absurd rfl hne
  | cons x ls ih =>
    cases ls with
    | nil => exact splitNl_no_nl (h x (by simp))
    | cons y ys =>
      rw [joinSep_cons _ _ (by simp), List.append_assoc,
        show (['\n'] : List Char) ++ joinSep ['\n'] (y :: ys) =
          '\n' :: joinSep ['\n'] (y :: ys) from rfl,
        splitNl_append_nl _ (h x (by simp)),
        ih (by simp) (fun l hl => h l (List.mem_cons_of_mem x hl))]

theorem keepFrom_true (m : List Char → Bool) (ls : List (List Char)) :
    keepFrom m true ls = ls := by
  induction ls with
  | nil => rfl
  | cons l ls ih => simp [keepFrom, ih]

theorem keepFrom_false_eq (m : List Char → Bool) (ls : List (List Char)) :
    keepFrom m false ls = ls.dropWhile (fun l => !m l) := by
  induction ls with
  | nil => rfl
  | cons l ls ih =>
    simp only [keepFrom]
    cases hm : m l with
    | true =>
      rw [List.dropWhile_cons_of_neg (by simp [hm])]
      simp [keepFrom_true]
    | false =>
      rw [List.dropWhile_cons_of_pos (by simp [hm])]
      simpa using ih

theorem newsCleanLine_no_nl {l : List Char} (h : '\n' ∉ l) :
    '\n' ∉ newsCleanLine l := by
  unfold newsCleanLine
  split
  · exact h
  · split
    · intro hmem
      exact h (subDR_subset l '\n' (subSR_subset (subDR l) '\n' hmem))
    · exact h

/-- Claim C1 amended: the intro-removal loop discards exactly the lines
before the first cleaned line containing a section marker; when no
cleaned line contains a marker, the Formatter returns the empty string
(it drops all content rather than passing it through). -/
theorem c1_intro_removal (text : List Char) :
    newsFormat text =
      pyStrip (joinSep ['\n']
        (((splitNl (newsMdClean text)).map newsCleanLine).dropWhile
          (fun l => !newsMarkerAny l))) ∧
    ((∀ l ∈ (splitNl (newsMdClean text)).map newsCleanLine,
        newsMarkerAny l = false) →
      newsFormat text = []) := by
  have hcls_ne : (splitNl (newsMdClean text)).map newsCleanLine ≠ [] := by
    intro h
    exact splitNl_ne_nil (newsMdClean text) (List.map_eq_nil.mp h)
  have hcls_nl : ∀ l ∈ (splitNl (newsMdClean text)).map newsCleanLine,
      '\n' ∉ l := by
    intro l hl
    rcases List.mem_map.mp hl with ⟨l0, hl0, rfl⟩
    exact newsCleanLine_no_nl (nl_not_mem_splitNl (newsMdClean text) l0 hl0)
  have key : newsFormat text =
      pyStrip (joinSep ['\n'] (keepFrom newsMarkerAny false
        ((splitNl (newsMdClean text)).map newsCleanLine))) := by
    show pyStrip (joinSep ['\n'] (keepFrom newsMarkerAny false
        (splitNl (joinSep ['\n']
          ((splitNl (newsMdClean text)).map newsCleanLine))))) = _
    rw [splitNl_joinSep hcls_ne hcls_nl]
  constructor
  · rw [key, keepFrom_false_eq]
  · intro hall
    rw [key, keepFrom_false_eq]
    have hdrop : ((splitNl (newsMdClean text)).map newsCleanLine).dropWhile
        (fun l => !newsMarkerAny l) = [] := by
      rw [List.dropWhile_eq_nil_iff]
      intro l hl
      simp [hall l hl]
    rw [hdrop]
    rfl

/-- Claim C1 amended witness: on marker-free input the Formatter drops
everything and returns the empty string. -/
theorem c1_witness : newsFormat "hello".toList = [] :=
  (c1_intro_removal "hello".toList).2 (by decide)

/-- Claim C1 counterexample: for the marker-free input "hello" the
Formatter does not pass the text through unmodified — it drops all
content and returns the empty string. -/
theorem c1_counterexample :
    newsFormat "hello world".toList = [] ∧
      "hello world".toList ≠ ([] : List Char) := by
  exact ⟨by decide, by decide⟩

theorem leadDash_cons_dash (l : List Char) : leadDash ('-' :: l) = 1 + leadDash l := by
  unfold leadDash
  rw [List.takeWhile_cons_of_pos (by decide)]
  simp [Nat.add_comm]

theorem leadDash_cons_ne {c : Char} (l : List Char) (h : c ≠ '-') :
    leadDash (c :: l) = 0 := by
  unfold leadDash
  rw [List.takeWhile_cons_of_neg (by simp [h])]
  rfl

theorem isPre_ddd_leadDash {R : List Char}
    (h : isPre ['-', '-', '-'] R = true) : 3 ≤ leadDash R := by
  match R with
  | a :: b :: c :: t =>
    simp only [isPre, Bool.and_eq_true, decide_eq_true_eq] at h
    rcases h with ⟨h1, h2, h3, _⟩
    subst h1; subst h2; subst h3
    rw [leadDash_cons_dash, leadDash_cons_dash, leadDash_cons_dash]
    omega
  | [] => exact absurd h (by decide)
  | [a] => exact absurd h (by simp [isPre])
  | [a, b] => exact absurd h (by simp [isPre])

theorem remove3_dash_spec : ∀ l : List Char,
    containsSub ['-', '-', '-'] (remove3 '-' '-' '-' l) = false ∧
    leadDash (remove3 '-' '-' '-' l) ≤ leadDash l := by
  intro l
  induction l using remove3.induct '-' '-' '-' with
  | case1 => exact ⟨by decide, by simp [remove3]⟩
  | case2 c1 => exact ⟨by simp [remove3, containsSub, isPre], by simp [remove3]⟩
  | case3 c1 c2 =>
    refine ⟨?_, by simp [remove3]⟩
    simp [remove3, containsSub, isPre]
  | case4 c1 c2 c3 rest hcond ih =>
    obtain ⟨hd1, hd2, hd3⟩ := hcond
    subst hd1; subst hd2; subst hd3
    rw [show remove3 '-' '-' '-' ('-' :: '-' :: '-' :: rest) =
        remove3 '-' '-' '-' rest from by rw [remove3]; rw [if_pos ⟨rfl, rfl, rfl⟩]]
    refine ⟨ih.1, ?_⟩
    calc leadDash (remove3 '-' '-' '-' rest) ≤ leadDash rest := ih.2
      _ ≤ leadDash ('-' :: '-' :: '-' :: rest) := by
          rw [leadDash_cons_dash, leadDash_cons_dash, leadDash_cons_dash]
          omega
  | case5 c1 c2 c3 rest hcond ih =>
    rw [show remove3 '-' '-' '-' (c1 :: c2 :: c3 :: rest) =
        c1 :: remove3 '-' '-' '-' (c2 :: c3 :: rest) from by
          rw [remove3]; rw [if_neg hcond]]
    constructor
    · show (isPre ['-', '-', '-'] (c1 :: remove3 '-' '-' '-' (c2 :: c3 :: rest)) ||
        containsSub ['-', '-', '-'] (remove3 '-' '-' '-' (c2 :: c3 :: rest))) = false
      rw [ih.1, Bool.or_false]
      by_cases hc1 : c1 = '-'
      · subst hc1
        cases hp : isPre ['-', '-', '-']
            ('-' :: remove3 '-' '-' '-' (c2 :: c3 :: rest)) with
        | false => rfl
        | true =>
          exfalso
          have h3 := isPre_ddd_leadDash hp
          rw [leadDash_cons_dash] at h3
          have hle := ih.2
          by_cases hc2 : c2 = '-'
          · subst hc2
            have hc3 : c3 ≠ '-' := fun hh => hcond ⟨rfl, rfl, hh⟩
            rw [leadDash_cons_dash, leadDash_cons_ne _ hc3] at hle
            omega
          · rw [leadDash_cons_ne _ hc2] at hle
            omega
      · cases hp : isPre ['-', '-', '-']
            (c1 :: remove3 '-' '-' '-' (c2 :: c3 :: rest)) with
        | false => rfl
        | true =>
          exfalso
          simp only [isPre, Bool.and_eq_true, decide_eq_true_eq] at hp
          exact hc1 hp.1.symm
    · by_cases hc1 : c1 = '-'
      · subst hc1
        rw [leadDash_cons_dash, leadDash_cons_dash]
        have := ih.2
        omega
      · rw [leadDash_cons_ne _ hc1]
        omega

/-- Claim C8 amended: after the news_digest markdown-cleanup stage (in
which the horizontal-rule marker is removed last) the text contains no
occurrence of `---`; the later passes, however, can re-create marker
sequences, so the full Formatter output is not free of them. -/
theorem c8_hrule_removed (s : List Char) :
    containsSub ['-', '-', '-'] (newsMdClean s) = false := by
  unfold newsMdClean
  exact (remove3_dash_spec _).1

/-- Claim C8 counterexample: removing the horizontal rule from
`#---#` splices the two surrounding `#` characters into the heading
marker `##`, which survives to the Formatter output. -/
theorem c8_counterexample :
    newsFormat "🇺🇸 X\n#---#".toList = "🇺🇸 X\n##".toList ∧
      containsSub "##".toList (newsFormat "🇺🇸 X\n#---#".toList) = true := by
  exact ⟨by decide, by decide⟩

theorem mem_dropWhile_of_neg {p : Char → Bool} {c : Char} :
    ∀ {l : List Char}, c ∈ l → p c = false → c ∈ l.dropWhile p := by
  intro l
  induction l with
  | nil => intro h _; exact absurd h (by simp)
  | cons x rest ih =>
    intro hmem hneg
    by_cases hx : p x = true
    · rw [List.dropWhile_cons_of_pos hx]
      rcases List.mem_cons.mp hmem with h1 | h1
      · subst h1; rw [hx] at hneg; exact absurd hneg (by simp)
      · exact ih h1 hneg
    · rw [List.dropWhile_cons_of_neg hx]
      exact hmem

theorem pyStrip_ne_nil_of_mem {l : List Char} {c : Char}
    (hc : c ∈ l) (hws : pyWs c = false) : pyStrip l ≠ [] := by
  have h1 : c ∈ l.reverse := List.mem_reverse.mpr hc
  have h2 : c ∈ l.reverse.dropWhile pyWs := mem_dropWhile_of_neg h1 hws
  have h3 : c ∈ stripRight l := by
    unfold stripRight
    exact List.mem_reverse.mpr h2
  have h4 : c ∈ pyStrip l := by
    unfold pyStrip stripLeft
    exact mem_dropWhile_of_neg h3 hws
  exact List.ne_nil_of_mem h4

theorem mem_of_getLast_some {α : Type} {l : List α} {a : α}
    (h : l.getLast? = some a) : a ∈ l := by
  rw [← List.head?_reverse] at h
  cases hr : l.reverse with
  | nil => rw [hr] at h; exact absurd h (by simp)
  | cons x t =>
    rw [hr] at h
    simp only [List.head?_cons, Option.some.injEq] at h
    have hx : a ∈ l.reverse := by
      rw [hr, ← h]
      simp
    simpa using hx

theorem getLast_some_of_ne_nil {α : Type} {l : List α} (h : l ≠ []) :
    ∃ a, l.getLast? = some a :=
  Option.isSome_iff_exists.mp (List.getLast?_isSome.mpr h)

theorem stripped_getLast {l : List Char} (h : pyStrip l = l) (hne : l ≠ []) :
    ∃ cl, l.getLast? = some cl ∧ pyWs cl = false := by
  obtain ⟨cl, hcl⟩ := getLast_some_of_ne_nil hne
  refine ⟨cl, hcl, ?_⟩
  have hlen1 : (stripRight l).length ≤ l.length := by
    unfold stripRight
    calc (l.reverse.dropWhile pyWs).reverse.length
        = (l.reverse.dropWhile pyWs).length := List.length_reverse _
      _ ≤ l.reverse.length := (List.dropWhile_sublist _).length_le
      _ = l.length := List.length_reverse _
  have hlen2 : (pyStrip l).length ≤ (stripRight l).length := by
    unfold pyStrip stripLeft
    exact (List.dropWhile_sublist _).length_le
  rw [h] at hlen2
  have hdw : l.reverse.dropWhile pyWs = l.reverse := by
    apply (List.dropWhile_sublist pyWs).eq_of_length
    have : (l.reverse.dropWhile pyWs).length = (stripRight l).length := by
      unfold stripRight
      rw [List.length_reverse]
    rw [this, List.length_reverse]
    omega
  rw [← List.head?_reverse] at hcl
  cases hr : l.reverse with
  | nil => rw [hr] at hcl; exact absurd hcl (by simp)
  | cons x t =>
    rw [hr] at hcl hdw
    simp only [List.head?_cons, Option.some.injEq] at hcl
    subst hcl
    by_cases hws : pyWs x = true
    · exfalso
      rw [List.dropWhile_cons_of_pos hws] at hdw
      have := congrArg List.length hdw
      have hle : (t.dropWhile pyWs).length ≤ t.length :=
        (List.dropWhile_sublist _).length_le
      simp only [List.length_cons] at this
      omega
    · simpa using hws

theorem splitPara_getLast_mem :
    ∀ (s : List Char) (cl : Char), s.getLast? = some cl → pyWs cl = false →
      ∃ p, (splitPara s).getLast? = some p ∧ cl ∈ p := by
  intro s
  induction s using splitPara.induct with
  | case1 rest ih =>
    intro cl hl hws
    cases rest with
    | nil =>
      have : cl = '\n' := by
        have hcomp : (['\n', '\n'] : List Char).getLast? = some '\n' := rfl
        rw [hcomp] at hl
        injection hl with hh
        exact hh.symm
      rw [this] at hws
      exact absurd hws (by decide)
    | cons r rs =>
      have hl2 : (r :: rs).getLast? = some cl := by
        rw [← hl, List.getLast?_cons_cons, List.getLast?_cons_cons]
      rcases ih cl hl2 hws with ⟨p, hp1, hp2⟩
      refine ⟨p, ?_, hp2⟩
      rw [show splitPara ('\n' :: '\n' :: (r :: rs)) =
        [] :: splitPara (r :: rs) from rfl]
      cases hsp : splitPara (r :: rs) with
      | nil => exact absurd hsp (splitPara_ne_nil _)
      | cons h t =>
        rw [hsp] at hp1
        rw [List.getLast?_cons_cons]
        exact hp1
  | case2 c cs hnot hnil ih => exact absurd hnil (splitPara_ne_nil cs)
  | case3 c cs hnot h t heq ih =>
    intro cl hl hws
    rw [splitPara_cons hnot, heq]
    cases cs with
    | nil =>
      have hh : h = [] ∧ t = [] := by
        have : ([[]] : List (List Char)) = h :: t := heq
        injection this with h1 h2
        exact ⟨h1.symm, h2.symm⟩
      obtain ⟨rfl, rfl⟩ := hh
      have hcl : cl = c := by
        have hcomp : ([c] : List Char).getLast? = some c := rfl
        rw [hcomp] at hl
        injection hl with hh2
        exact hh2.symm
      subst hcl
      exact ⟨[cl], rfl, by simp⟩
    | cons d ds =>
      have hl2 : (d :: ds).getLast? = some cl := by
        rw [← hl, List.getLast?_cons_cons]
      rcases ih cl hl2 hws with ⟨p, hp1, hp2⟩
      rw [heq] at hp1
      cases t with
      | nil =>
        have hph : p = h := by
          have hcomp : ([h] : List (List Char)).getLast? = some h := rfl
          rw [hcomp] at hp1
          injection hp1 with hh2
          exact hh2.symm
        subst hph
        exact ⟨c :: p, rfl, List.mem_cons_of_mem c hp2⟩
      | cons t1 ts =>
        refine ⟨p, ?_, hp2⟩
        rw [List.getLast?_cons_cons]
        rw [List.getLast?_cons_cons] at hp1
        exact hp1
  | case4 =>
    intro cl hl hws
    exact absurd hl (by simp)

theorem chunkLoop_nil_cons (L : Nat) (p : List Char) (ps : List (List Char)) :
    chunkLoop L [] (p :: ps) = chunkLoop L (p ++ parSep) ps := by
  simp only [chunkLoop]
  split
  · simp
  · simp

theorem techChunkLoop_nil_cons (L : Nat) (p : List Char)
    (ps : List (List Char)) :
    techChunkLoop L [] (p :: ps) = techChunkLoop L (p ++ parSep) ps := by
  simp only [techChunkLoop]
  split
  · simp
  · simp

theorem chunkLoop_getLast_ne_nil (L : Nat) :
    ∀ (ps : List (List Char)) (cur : List Char), cur ≠ [] →
      (ps = [] → ∃ c ∈ cur, pyWs c = false) →
      (∀ q, ps.getLast? = some q → ∃ c ∈ q, pyWs c = false) →
      ∃ ch, (chunkLoop L cur ps).getLast? = some ch ∧ ch ≠ [] := by
  intro ps
  induction ps with
  | nil =>
    intro cur hcur h1 _
    rcases h1 rfl with ⟨c, hc, hws⟩
    refine ⟨pyStrip cur, ?_, pyStrip_ne_nil_of_mem hc hws⟩
    simp [chunkLoop, hcur]
  | cons p ps ih =>
    intro cur hcur _ h2
    have hlast : ∀ q, ps.getLast? = some q → ∃ c ∈ q, pyWs c = false := by
      intro q hq
      cases ps with
      | nil => exact absurd hq (by simp)
      | cons a b =>
        exact h2 q (by rw [List.getLast?_cons_cons]; exact hq)
    have hplast : ps = [] → ∃ c ∈ p, pyWs c = false := by
      intro hps
      subst hps
      exact h2 p rfl
    simp only [chunkLoop]
    split
    · have hne2 : (p ++ parSep : List Char) ≠ [] := by simp [parSep]
      rcases ih (p ++ parSep) hne2
          (fun hps => by
            rcases hplast hps with ⟨c, hc, hws⟩
            exact ⟨c, List.mem_append_left _ hc, hws⟩)
          hlast with ⟨ch, hch, hchne⟩
      refine ⟨ch, ?_, hchne⟩
      rw [List.getLast?_append_of_ne_nil _ (chunkLoop_ne_nil L ps _ hne2)]
      exact hch
    · have hne2 : (cur ++ p ++ parSep : List Char) ≠ [] := by simp [parSep]
      exact ih (cur ++ p ++ parSep) hne2
        (fun hps => by
          rcases hplast hps with ⟨c, hc, hws⟩
          exact ⟨c, by simp [hc], hws⟩)
        hlast

theorem newsChunkBlocks_filter :
    ∀ chunks : List (List Char),
      (∀ ch, chunks.getLast? = some ch → ch ≠ []) →
      newsChunkBlocks chunks =
        specAlternating (chunks.filter (fun c => !c.isEmpty)) := by
  intro chunks
  induction chunks with
  | nil => intro _; rfl
  | cons c rest ih =>
    intro hlast
    cases rest with
    | nil =>
      have hc : c ≠ [] := hlast c rfl
      have hce : c.isEmpty = false := by
        cases c with
        | nil => exact absurd rfl hc
        | cons a l => rfl
      simp [newsChunkBlocks, hce, List.filter_cons, specAlternating]
    | cons d rest2 =>
      have hlast2 : ∀ ch, (d :: rest2).getLast? = some ch → ch ≠ [] := by
        intro ch hch
        exact hlast ch (by rw [List.getLast?_cons_cons]; exact hch)
      have hfilter_ne : (d :: rest2).filter (fun x => !x.isEmpty) ≠ [] := by
        obtain ⟨ch, hch⟩ :=
          getLast_some_of_ne_nil (List.cons_ne_nil d rest2)
        have hchne : ch ≠ [] := hlast2 ch hch
        have hchmem : ch ∈ d :: rest2 := mem_of_getLast_some hch
        have hche : ch.isEmpty = false := by
          cases ch with
          | nil => exact absurd rfl hchne
          | cons a l => rfl
        apply List.ne_nil_of_mem
        exact List.mem_filter.mpr ⟨hchmem, by simp [hche]⟩
      have hrec := ih hlast2
      by_cases hc : c = []
      · subst hc
        rw [List.filter_cons, if_neg (by simp), ← hrec]
        show newsChunkBlocks ([] :: d :: rest2) = newsChunkBlocks (d :: rest2)
        simp [newsChunkBlocks]
      · have hce : c.isEmpty = false := by
          cases c with
          | nil => exact absurd rfl hc
          | cons a l => rfl
        rw [List.filter_cons, if_pos (by simp [hce])]
        cases hf : (d :: rest2).filter (fun x => !x.isEmpty) with
        | nil => exact absurd hf hfilter_ne
        | cons f fs =>
          show (if c.isEmpty then [] else
              [Block.sectionBlk c, Block.divider]) ++
              newsChunkBlocks (d :: rest2) =
            specAlternating (c :: f :: fs)
          rw [hce, if_neg (by simp), hrec, hf]
          rfl

theorem techChunkLoop_eq (L : Nat) :
    ∀ (ps : List (List Char)) (cur : List Char), cur ≠ [] →
      techChunkLoop L cur ps = specAlternating (chunkLoop L cur ps) := by
  intro ps
  induction ps with
  | nil =>
    intro cur hcur
    simp [techChunkLoop, chunkLoop, hcur, specAlternating]
  | cons p ps ih =>
    intro cur hcur
    simp only [techChunkLoop, chunkLoop]
    split
    · have hne2 : (p ++ parSep : List Char) ≠ [] := by simp [parSep]
      have hrecne := chunkLoop_ne_nil L ps (p ++ parSep) hne2
      rw [ih (p ++ parSep) hne2]
      cases hcl : chunkLoop L (p ++ parSep) ps with
      | nil => exact absurd hcl hrecne
      | cons x xs => simp [specAlternating]
    · exact ih (cur ++ p ++ parSep) (by simp [parSep])

theorem head_dropWhile_neg {p : Char → Bool} :
    ∀ {l : List Char} {x : Char}, (l.dropWhile p).head? = some x →
      p x = false := by
  intro l
  induction l with
  | nil => intro x h; exact absurd h (by simp)
  | cons a rest ih =>
    intro x h
    by_cases ha : p a = true
    · rw [List.dropWhile_cons_of_pos ha] at h
      exact ih h
    · rw [List.dropWhile_cons_of_neg ha] at h
      simp only [List.head?_cons, Option.some.injEq] at h
      rw [← h]
      simpa using ha

theorem stripRight_eq_self_of_getLast {l : List Char} {cl : Char}
    (h : l.getLast? = some cl) (hws : pyWs cl = false) : stripRight l = l := by
  unfold stripRight
  rw [← List.head?_reverse] at h
  cases hr : l.reverse with
  | nil => rw [hr] at h; exact absurd h (by simp)
  | cons x t =>
    rw [hr] at h
    simp only [List.head?_cons, Option.some.injEq] at h
    subst h
    rw [List.dropWhile_cons_of_neg (by simp [hws]), ← hr,
      List.reverse_reverse]

theorem getLast_stripLeft {y : List Char} (h : stripLeft y ≠ []) :
    (stripLeft y).getLast? = y.getLast? := by
  conv_rhs => rw [← List.takeWhile_append_dropWhile pyWs y]
  unfold stripLeft at h ⊢
  rw [List.getLast?_append_of_ne_nil _ h]

theorem pyStrip_idem (l : List Char) : pyStrip (pyStrip l) = pyStrip l := by
  by_cases hnil : pyStrip l = []
  · rw [hnil]
    rfl
  · have hsr_ne : stripRight l ≠ [] := by
      intro hh
      apply hnil
      unfold pyStrip
      rw [hh]
      rfl
    obtain ⟨cl, hcl⟩ := getLast_some_of_ne_nil hsr_ne
    have hws : pyWs cl = false := by
      have hrev : (l.reverse.dropWhile pyWs).head? = some cl := by
        have hgr := List.getLast?_reverse (l.reverse.dropWhile pyWs)
        unfold stripRight at hcl
        rw [hcl] at hgr
        exact hgr.symm
      exact head_dropWhile_neg hrev
    have hlast : (pyStrip l).getLast? = some cl := by
      unfold pyStrip at hnil ⊢
      rw [getLast_stripLeft hnil]
      exact hcl
    obtain ⟨hd, hhd⟩ : ∃ hd, (pyStrip l).head? = some hd := by
      cases hp : pyStrip l with
      | nil => exact absurd hp hnil
      | cons x t => exact ⟨x, rfl⟩
    have hwhd : pyWs hd = false := by
      apply head_dropWhile_neg
      show ((stripRight l).dropWhile pyWs).head? = some hd
      exact hhd
    show stripLeft (stripRight (pyStrip l)) = pyStrip l
    rw [stripRight_eq_self_of_getLast hlast hws]
    cases hp : pyStrip l with
    | nil => exact absurd hp hnil
    | cons x t =>
      rw [hp] at hhd
      simp only [List.head?_cons, Option.some.injEq] at hhd
      subst hhd
      unfold stripLeft
      rw [List.dropWhile_cons_of_neg (by simp [hwhd])]

theorem newsFormat_stripped (raw : List Char) :
    pyStrip (newsFormat raw) = newsFormat raw := by
  unfold newsFormat
  exact pyStrip_idem _

/-- Claim C7: dividers produced by the chunk-emission loops appear
strictly between two consecutive chunk Section blocks, with no
chunk-loop Divider after the final chunk's Section block.  The
Formatter output — the chunker's input — is always stripped; on every
stripped text the news_digest chunk-to-block loop emits exactly one
Section per non-empty chunk, in order, with Dividers strictly between
consecutive Sections and none trailing; the tech_deepdive loop emits
exactly that alternating layout for every text unconditionally. -/
theorem c7_dividers_strict :
    (∀ raw : List Char, pyStrip (newsFormat raw) = newsFormat raw) ∧
    (∀ (L : Nat) (text : List Char), pyStrip text = text →
      newsChunkBlocks (chunksOf L text) =
        specAlternating ((chunksOf L text).filter (fun c => !c.isEmpty))) ∧
    (∀ (L : Nat) (text : List Char),
      techChunkBlocks L text = specAlternating (chunksOf L text)) := by
  refine ⟨newsFormat_stripped, ?_, ?_⟩
  · intro L text hstrip
    by_cases htext : text = []
    · subst htext
      have hempty : chunksOf L [] = [[]] := by
        unfold chunksOf
        rw [show splitPara ([] : List Char) = [[]] from rfl,
          chunkLoop_nil_cons, List.nil_append]
        have hps2 : pyStrip ['\n', '\n'] = [] := by decide
        simp [chunkLoop, parSep, hps2]
      rw [hempty]
      rfl
    · apply newsChunkBlocks_filter
      intro ch hch
      obtain ⟨cl, hcl, hclws⟩ := stripped_getLast hstrip htext
      obtain ⟨pl, hpl, hmem⟩ := splitPara_getLast_mem text cl hcl hclws
      obtain ⟨p, ps, hps⟩ : ∃ p ps, splitPara text = p :: ps := by
        cases hq : splitPara text with
        | nil => exact absurd hq (splitPara_ne_nil text)
        | cons a b => exact ⟨a, b, rfl⟩
      have hentry : chunksOf L text = chunkLoop L (p ++ parSep) ps := by
        unfold chunksOf
        rw [hps, chunkLoop_nil_cons]
      rw [hps] at hpl
      obtain ⟨ch2, hch2, hch2ne⟩ :=
        chunkLoop_getLast_ne_nil L ps (p ++ parSep) (by simp [parSep])
          (fun hpsnil => by
            subst hpsnil
            have hplp : pl = p := by
              have : ([p] : List (List Char)).getLast? = some p := rfl
              rw [this] at hpl
              injection hpl with hh
              exact hh.symm
            subst hplp
            exact ⟨cl, List.mem_append_left _ hmem, hclws⟩)
          (fun q hq => by
            cases hpscase : ps with
            | nil =>
              rw [hpscase] at hq
              exact absurd hq (by simp)
            | cons a b =>
              rw [hpscase] at hpl hq
              rw [List.getLast?_cons_cons] at hpl
              rw [hpl] at hq
              injection hq with hh
              subst hh
              exact ⟨cl, hmem, hclws⟩)
      rw [hentry, hch2] at hch
      injection hch with hh
      subst hh
      exact hch2ne
  · intro L text
    obtain ⟨p, ps, hps⟩ : ∃ p ps, splitPara text = p :: ps := by
      cases hq : splitPara text with
      | nil => exact absurd hq (splitPara_ne_nil text)
      | cons a b => exact ⟨a, b, rfl⟩
    unfold techChunkBlocks chunksOf
    rw [hps, chunkLoop_nil_cons, techChunkLoop_nil_cons]
    exact techChunkLoop_eq L ps (p ++ parSep) (by simp [parSep])

/-- Claim C7 witness: on the stripped text `"aaa\n\nbb"` with limit 5
both loops produce Section, Divider, Section — the Divider strictly
between the two Sections and none after the last. -/
theorem c7_dividers_strict_witness :
    newsChunkBlocks (chunksOf 5 "aaa\n\nbb".toList) =
        specAlternating
          ((chunksOf 5 "aaa\n\nbb".toList).filter (fun c => !c.isEmpty)) ∧
      techChunkBlocks 5 "aaa\n\nbb".toList =
        specAlternating (chunksOf 5 "aaa\n\nbb".toList) :=
  ⟨c7_dividers_strict.2.1 5 "aaa\n\nbb".toList (by decide),
   c7_dividers_strict.2.2 5 "aaa\n\nbb".toList⟩
